import Mathlib

/-!
Shallow embedding of the streaming content-defined chunking engine of
puzzlefs (`builder/src/fastcdc_fs.rs`), the `FastCDCWrapper` around the
FastCDC boundary detector, together with proofs of the specified
properties: write-granularity invariance, coverage, contiguity, size
bounds, chunk-data correctness, configuration handling, post-finish
writes, the bounded-window invariant and the drain semantics.

Bytes are modelled as natural numbers; the wrapper never computes with
byte values, it only copies them, so no modular arithmetic is needed.
The fixed-capacity window `buf: Vec<u8>` of length `max` with its
occupancy cursor `buf_offset` is modelled by the list of its occupied
prefix `buf[0..buf_offset]` (bytes past the cursor are never read by the
code), so `buf_offset = buf.length` and the capacity is the `max` field.
-/

/-- A chunk produced by the chunker: absolute `offset` into the stream,
`length` in bytes, and the owned copy `data` of those bytes
(struct `ChunkWithData` in the source). -/
structure ChunkWithData where
  offset : Nat
  length : Nat
  data : List Nat
deriving DecidableEq, Repr

/-- State of the streaming wrapper (struct `FastCDCWrapper` in the source).
`buf` models the occupied prefix `buf[0..buf_offset]` of the fixed window,
whose capacity is the `max` field. -/
structure FastCDCWrapper where
  min : Nat
  avg : Nat
  max : Nat
  buf : List Nat
  global_offset : Nat
  chunks : List ChunkWithData
deriving DecidableEq, Repr

/-- Modelled from the spec: the Boundary Detector's search for the first cut
in a window (the third-party FastCDC iterator is not part of the repository
sources). The rolling-hash-against-threshold test of §4.1 is abstracted into
the predicate `qual`, applied to the bytes accumulated since the previous cut
(the spec's determinism requirement: the decision depends only on byte content
at a position-since-last-cut). Once at least `mn` bytes have accumulated the
hash is consulted; if no qualifying position occurs before `mx` bytes
accumulate, a forced cut is made exactly at `mx`; if the window ends before
either happens, no cut is resolvable. -/
def firstCut (qual : List Nat → Bool) (mn mx : Nat) (w : List Nat) : Option Nat :=
  match (List.range' mn (min w.length mx + 1 - mn)).find? (fun c => qual (w.take c)) with
  | some c => some c
  | none => if mx ≤ w.length then some mx else none

/-- Modelled from the spec: recursive worker for the Boundary Detector,
emitting `(relative_offset, length)` descriptors. When `final` is false the
unresolved tail is withheld; when `final` is true all remaining bytes are
emitted as a last chunk even if shorter than `mn`. The `fuel` argument only
bounds the recursion; `w.length + 1` is proved sufficient for valid
configurations. -/
def detectGo (qual : List Nat → Bool) (mn mx : Nat) (final : Bool) :
    Nat → Nat → List Nat → List (Nat × Nat)
  | 0, _, _ => []
  | fuel + 1, off, w =>
    if w = [] then []
    else
      match firstCut qual mn mx w with
      | some c => (off, c) :: detectGo qual mn mx final fuel (off + c) (w.drop c)
      | none => if final then [(off, w.length)] else []

/-- Modelled from the spec: the Boundary Detector contract
`detect(window, min, avg, max, is_final)` (the call
`FastCDC::with_eof(&buf[0..buf_offset], min, avg, max, eof)` in the source).
The `avg` parameter tunes the hash threshold, which is abstracted into
`qual`, so it does not appear in the model's control flow. -/
def detect (qual : List Nat → Bool) (mn avg mx : Nat) (final : Bool)
    (w : List Nat) : List (Nat × Nat) :=
  detectGo qual mn mx final (w.length + 1) 0 w

/-- Source default `MIN_CHUNK_SIZE`. -/
def MIN_CHUNK_SIZE : Nat := 10 * 1024 * 1024
/-- Source default `AVG_CHUNK_SIZE`. -/
def AVG_CHUNK_SIZE : Nat := 40 * 1024 * 1024
/-- Source default `MAX_CHUNK_SIZE`. -/
def MAX_CHUNK_SIZE : Nat := 256 * 1024 * 1024

/-- Constructor `FastCDCWrapper::new_with_sizes`: records the parameters and
starts with an empty window (`vec![0; max]` with `buf_offset = 0`), zero
global offset and no pending chunks. Note that the source performs no
validation of the size parameters here. -/
def new_with_sizes (mn avg mx : Nat) : FastCDCWrapper :=
  { min := mn, avg := avg, max := mx, buf := [], global_offset := 0, chunks := [] }

/-- Constructor `FastCDCWrapper::new`: the fixed default parameters. -/
def FastCDCWrapper.new : FastCDCWrapper :=
  new_with_sizes MIN_CHUNK_SIZE AVG_CHUNK_SIZE MAX_CHUNK_SIZE

/-- Method `FastCDCWrapper::get_pending_chunks(&mut self, pending)`:
`pending.clone_from(&self.chunks); self.chunks.clear();`. Returns the new
contents of the caller's vector together with the new wrapper state. The
prior contents of `pending` are discarded by `clone_from`. -/
def get_pending_chunks (st : FastCDCWrapper) (pending : List ChunkWithData) :
    List ChunkWithData × FastCDCWrapper :=
  (st.chunks, { st with chunks := [] })

/-- The materialization loop inside `render_chunks`: for each descriptor, copy
`length` bytes starting at the running `used` cursor out of the window
(`data.copy_from_slice(&self.buf[used..used + chunk.length])`) and emit a
`ChunkWithData` whose offset is `global_offset + chunk.offset`. -/
def materialize (buf : List Nat) (global : Nat) : Nat → List (Nat × Nat) → List ChunkWithData
  | _, [] => []
  | used, p :: ps =>
    { offset := global + p.1, length := p.2, data := (buf.drop used).take p.2 }
      :: materialize buf global (used + p.2) ps

/-- Sum of the `length` fields of a list of chunk descriptors. -/
def pairsSum (cs : List (Nat × Nat)) : Nat := (cs.map Prod.snd).sum

/-- Method `FastCDCWrapper::render_chunks(&mut self, eof)`: run the Boundary
Detector over the occupied window; if it returns no chunks do nothing;
otherwise materialize each chunk, advance `global_offset` by the consumed
byte count, and keep the unconsumed leftover at the front of the window
(`buf[0..leftover]` receives `buf[used..used+leftover]`, and
`buf_offset = leftover`; in the occupied-prefix model this is
`buf.drop used`). -/
def render_chunks (qual : List Nat → Bool) (eof : Bool) (st : FastCDCWrapper) :
    FastCDCWrapper :=
  let cs := detect qual st.min st.avg st.max eof st.buf
  if cs = [] then st
  else
    { st with
      chunks := st.chunks ++ materialize st.buf st.global_offset 0 cs
      global_offset := st.global_offset + pairsSum cs
      buf := st.buf.drop (pairsSum cs) }

/-- Method `FastCDCWrapper::finish`: one final render pass with
end-of-stream semantics. -/
def finish (qual : List Nat → Bool) (st : FastCDCWrapper) : FastCDCWrapper :=
  render_chunks qual true st

/-- The loop body of `<FastCDCWrapper as io::Write>::write`: starting from
`write_offset`, copy `room = min(capacity - buf_offset, len - write_offset)`
bytes into the window (guarded by the always-true bounds check of the
source), and render when the window becomes completely full. `fuel` bounds
the number of loop iterations; `none` models the loop failing to terminate,
which is proved impossible for valid configurations. -/
def writeGo (qual : List Nat → Bool) :
    Nat → FastCDCWrapper → List Nat → Nat → Option (FastCDCWrapper × Nat)
  | 0, _, _, _ => none
  | fuel + 1, st, w, write_offset =>
    if write_offset = w.length then some (st, write_offset)
    else
      let room := min (st.max - st.buf.length) (w.length - write_offset)
      let cur := (w.drop write_offset).take room
      let st1 : FastCDCWrapper :=
        if st.buf.length + cur.length ≤ st.max then { st with buf := st.buf ++ cur } else st
      let wo1 :=
        if st.buf.length + cur.length ≤ st.max then write_offset + cur.length else write_offset
      let st2 := if st1.buf.length = st1.max then render_chunks qual false st1 else st1
      writeGo qual fuel st2 w wo1

/-- Method `write` of the `io::Write` implementation: run the copy loop from
`write_offset = 0` and return `Ok(write_offset)`. The fuel `2 * w.length + 2`
is proved sufficient for valid configurations. -/
def write (qual : List Nat → Bool) (st : FastCDCWrapper) (w : List Nat) :
    Option (FastCDCWrapper × Nat) :=
  writeGo qual (2 * w.length + 2) st w 0

/-- Run a sequence of `write` calls (the append phase of one stream). -/
def runWrites (qual : List Nat → Bool) (st : FastCDCWrapper) :
    List (List Nat) → Option FastCDCWrapper
  | [] => some st
  | w :: ws =>
    match write qual st w with
    | none => none
    | some (st1, _) => runWrites qual st1 ws

/-- Chunk a stream presented as a partition into `write` calls: construct the
engine, perform every write, then `finish`, and read the accumulated chunks. -/
def chunkStream (qual : List Nat → Bool) (mn avg mx : Nat)
    (parts : List (List Nat)) : Option (List ChunkWithData) :=
  match runWrites qual (new_with_sizes mn avg mx) parts with
  | none => none
  | some st => some (finish qual st).chunks

/-- One byte of the write loop: append the byte to the window and render if
the window just became completely full. Copying `room` bytes at once and
rendering on fullness is equivalent to this byte-at-a-time step, which is the
form the proofs use. -/
def step1 (qual : List Nat → Bool) (st : FastCDCWrapper) (b : Nat) : FastCDCWrapper :=
  let st1 : FastCDCWrapper := { st with buf := st.buf ++ [b] }
  if st1.buf.length = st1.max then render_chunks qual false st1 else st1

/-- Feed a byte sequence through the byte-at-a-time write step. -/
def feed (qual : List Nat → Bool) (st : FastCDCWrapper) (s : List Nat) : FastCDCWrapper :=
  s.foldl (step1 qual) st

/-- The canonical result of chunking a whole byte sequence: feed all bytes,
then finish. -/
def chunkedBytes (qual : List Nat → Bool) (mn avg mx : Nat) (s : List Nat) :
    List ChunkWithData :=
  (finish qual (feed qual (new_with_sizes mn avg mx) s)).chunks

/-- Sum of the `length` fields of a list of chunks. -/
def chunksLen (cs : List ChunkWithData) : Nat := (cs.map fun c => c.length).sum

/-- Boolean contiguity predicate: the chunk offsets form a gapless chain
starting at `n`, each next offset equal to the previous offset plus its
length. -/
def contiguousFromB : Nat → List ChunkWithData → Bool
  | _, [] => true
  | n, c :: cs => (c.offset == n) && contiguousFromB (n + c.length) cs

/-- Boolean contiguity predicate for window-relative descriptors. -/
def relContig : Nat → List (Nat × Nat) → Bool
  | _, [] => true
  | n, p :: ps => (p.1 == n) && relContig (n + p.2) ps

/-- The state is validly configured and its window is strictly below
capacity (which holds at every operation boundary). -/
def Ok (st : FastCDCWrapper) : Prop :=
  0 < st.min ∧ st.min ≤ st.max ∧ st.buf.length < st.max


/-- Full invariant except for strictness of window occupancy: the state is a
faithful snapshot of chunking the stream `S`: the window holds exactly the
not-yet-consumed suffix, the produced chunks tile `[0, global_offset)`
contiguously, and each chunk carries the right slice of `S` with in-bounds
sizes. -/
def InvCore (S : List Nat) (st : FastCDCWrapper) : Prop :=
  0 < st.min ∧ st.min ≤ st.max ∧
  st.buf = S.drop st.global_offset ∧
  st.global_offset + st.buf.length = S.length ∧
  contiguousFromB 0 st.chunks = true ∧
  chunksLen st.chunks = st.global_offset ∧
  ∀ c ∈ st.chunks, c.data = (S.drop c.offset).take c.length ∧
    st.min ≤ c.length ∧ c.length ≤ st.max

/-- The invariant holding at every operation boundary: the core facts plus
strict window occupancy. -/
def WrapInv (S : List Nat) (st : FastCDCWrapper) : Prop :=
  InvCore S st ∧ st.buf.length < st.max


/-! ### Basic facts about sums and contiguity -/

@[simp] lemma pairsSum_nil : pairsSum [] = 0 := rfl

@[simp] lemma pairsSum_cons (p : Nat × Nat) (ps : List (Nat × Nat)) :
    pairsSum (p :: ps) = p.2 + pairsSum ps := by
  simp [pairsSum]

@[simp] lemma chunksLen_nil : chunksLen [] = 0 := rfl

@[simp] lemma chunksLen_cons (c : ChunkWithData) (cs : List ChunkWithData) :
    chunksLen (c :: cs) = c.length + chunksLen cs := by
  simp [chunksLen]

lemma chunksLen_append (a b : List ChunkWithData) :
    chunksLen (a ++ b) = chunksLen a + chunksLen b := by
  simp [chunksLen]

/-! ### Facts about the Boundary Detector -/

lemma firstCut_le {qual : List Nat → Bool} {mn mx : Nat} {w : List Nat} {c : Nat}
    (h : firstCut qual mn mx w = some c) : c ≤ mx ∧ c ≤ w.length := by
  unfold firstCut at h
  cases hf : (List.range' mn (min w.length mx + 1 - mn)).find? (fun c => qual (w.take c)) with
  | some d =>
    rw [hf] at h
    have hmem := List.mem_of_find?_eq_some hf
    rw [List.mem_range'_1] at hmem
    simp only [Option.some.injEq] at h
    omega
  | none =>
    rw [hf] at h
    by_cases hle : mx ≤ w.length
    · simp only [hle, if_true, Option.some.injEq] at h
      omega
    · simp [hle] at h

lemma firstCut_min {qual : List Nat → Bool} {mn mx : Nat} {w : List Nat} {c : Nat}
    (hmx : mn ≤ mx) (h : firstCut qual mn mx w = some c) : mn ≤ c := by
  unfold firstCut at h
  cases hf : (List.range' mn (min w.length mx + 1 - mn)).find? (fun c => qual (w.take c)) with
  | some d =>
    rw [hf] at h
    have hmem := List.mem_of_find?_eq_some hf
    rw [List.mem_range'_1] at hmem
    simp only [Option.some.injEq] at h
    omega
  | none =>
    rw [hf] at h
    by_cases hle : mx ≤ w.length
    · simp only [hle, if_true, Option.some.injEq] at h
      omega
    · simp [hle] at h

lemma firstCut_none_lt {qual : List Nat → Bool} {mn mx : Nat} {w : List Nat}
    (h : firstCut qual mn mx w = none) : w.length < mx := by
  unfold firstCut at h
  cases hf : (List.range' mn (min w.length mx + 1 - mn)).find? (fun c => qual (w.take c)) with
  | some d => rw [hf] at h; simp at h
  | none =>
    rw [hf] at h
    by_cases hle : mx ≤ w.length
    · simp [hle] at h
    · omega

lemma firstCut_full {qual : List Nat → Bool} {mn mx : Nat} {w : List Nat}
    (h : mx ≤ w.length) : ∃ c, firstCut qual mn mx w = some c := by
  cases hc : firstCut qual mn mx w with
  | some c => exact ⟨c, rfl⟩
  | none => exact absurd (firstCut_none_lt hc) (by omega)

lemma detectGo_sum_le (qual : List Nat → Bool) (mn mx : Nat) (final : Bool) :
    ∀ (fuel off : Nat) (w : List Nat),
      pairsSum (detectGo qual mn mx final fuel off w) ≤ w.length := by
  intro fuel
  induction fuel with
  | zero => intro off w; simp [detectGo]
  | succ f ih =>
    intro off w
    rw [detectGo]
    by_cases hw : w = []
    · simp [hw]
    · rw [if_neg hw]
      cases hc : firstCut qual mn mx w with
      | some c =>
        have hb := firstCut_le hc
        have := ih (off + c) (w.drop c)
        simp only [pairsSum_cons, List.length_drop] at *
        omega
      | none =>
        by_cases hf : final
        · simp [hf]
        · simp [hf]

lemma detectGo_true_sum (qual : List Nat → Bool) (mn mx : Nat)
    (hmn : 0 < mn) (hmx : mn ≤ mx) :
    ∀ (fuel off : Nat) (w : List Nat), w.length < fuel →
      pairsSum (detectGo qual mn mx true fuel off w) = w.length := by
  intro fuel
  induction fuel with
  | zero => intro off w h; omega
  | succ f ih =>
    intro off w hlt
    rw [detectGo]
    by_cases hw : w = []
    · simp [hw]
    · rw [if_neg hw]
      cases hc : firstCut qual mn mx w with
      | some c =>
        have hb := firstCut_le hc
        have hm := firstCut_min hmx hc
        have := ih (off + c) (w.drop c) (by simp [List.length_drop]; omega)
        simp only [pairsSum_cons, List.length_drop] at *
        omega
      | none => simp

lemma detectGo_relContig (qual : List Nat → Bool) (mn mx : Nat) (final : Bool) :
    ∀ (fuel off : Nat) (w : List Nat),
      relContig off (detectGo qual mn mx final fuel off w) = true := by
  intro fuel
  induction fuel with
  | zero => intro off w; simp [detectGo, relContig]
  | succ f ih =>
    intro off w
    rw [detectGo]
    by_cases hw : w = []
    · simp [hw, relContig]
    · rw [if_neg hw]
      cases hc : firstCut qual mn mx w with
      | some c => simp [relContig, ih (off + c) (w.drop c)]
      | none =>
        by_cases hf : final
        · simp [hf, relContig]
        · simp [hf, relContig]

lemma detectGo_le_mx (qual : List Nat → Bool) (mn mx : Nat) (final : Bool) :
    ∀ (fuel off : Nat) (w : List Nat),
      ∀ p ∈ detectGo qual mn mx final fuel off w, p.2 ≤ mx := by
  intro fuel
  induction fuel with
  | zero => intro off w; simp [detectGo]
  | succ f ih =>
    intro off w
    rw [detectGo]
    by_cases hw : w = []
    · simp [hw]
    · rw [if_neg hw]
      cases hc : firstCut qual mn mx w with
      | some c =>
        intro p hp
        rcases List.mem_cons.mp hp with h | h
        · subst h; exact (firstCut_le hc).1
        · exact ih (off + c) (w.drop c) p h
      | none =>
        have := firstCut_none_lt hc
        by_cases hf : final
        · simp only [hf, if_true]
          intro p hp
          simp only [List.mem_singleton] at hp
          subst hp
          omega
        · simp [hf]

lemma detectGo_min_false (qual : List Nat → Bool) (mn mx : Nat) (hmx : mn ≤ mx) :
    ∀ (fuel off : Nat) (w : List Nat),
      ∀ p ∈ detectGo qual mn mx false fuel off w, mn ≤ p.2 := by
  intro fuel
  induction fuel with
  | zero => intro off w; simp [detectGo]
  | succ f ih =>
    intro off w
    rw [detectGo]
    by_cases hw : w = []
    · simp [hw]
    · rw [if_neg hw]
      cases hc : firstCut qual mn mx w with
      | some c =>
        intro p hp
        rcases List.mem_cons.mp hp with h | h
        · subst h; exact firstCut_min hmx hc
        · exact ih (off + c) (w.drop c) p h
      | none => simp

lemma detectGo_pos (qual : List Nat → Bool) (mn mx : Nat) (final : Bool)
    (hmn : 0 < mn) (hmx : mn ≤ mx) :
    ∀ (fuel off : Nat) (w : List Nat),
      ∀ p ∈ detectGo qual mn mx final fuel off w, 1 ≤ p.2 := by
  intro fuel
  induction fuel with
  | zero => intro off w; simp [detectGo]
  | succ f ih =>
    intro off w
    rw [detectGo]
    by_cases hw : w = []
    · simp [hw]
    · rw [if_neg hw]
      cases hc : firstCut qual mn mx w with
      | some c =>
        intro p hp
        rcases List.mem_cons.mp hp with h | h
        · subst h
          have := firstCut_min hmx hc
          simp only []
          omega
        · exact ih (off + c) (w.drop c) p h
      | none =>
        by_cases hf : final
        · simp only [hf, if_true]
          intro p hp
          simp only [List.mem_singleton] at hp
          subst hp
          have : w.length ≠ 0 := fun h => hw (List.eq_nil_of_length_eq_zero h)
          simp only []
          omega
        · simp [hf]

lemma detectGo_dropLast_min (qual : List Nat → Bool) (mn mx : Nat) (final : Bool)
    (hmx : mn ≤ mx) :
    ∀ (fuel off : Nat) (w : List Nat),
      ∀ p ∈ (detectGo qual mn mx final fuel off w).dropLast, mn ≤ p.2 := by
  intro fuel
  induction fuel with
  | zero => intro off w; simp [detectGo]
  | succ f ih =>
    intro off w
    rw [detectGo]
    by_cases hw : w = []
    · simp [hw]
    · rw [if_neg hw]
      cases hc : firstCut qual mn mx w with
      | some c =>
        dsimp only
        cases hr : detectGo qual mn mx final f (off + c) (w.drop c) with
        | nil => simp
        | cons q qs =>
          intro p hp
          rw [List.dropLast_cons₂] at hp
          rcases List.mem_cons.mp hp with h | h
          · rw [h]; exact firstCut_min hmx hc
          · have hrec := ih (off + c) (w.drop c)
            rw [hr] at hrec
            exact hrec p h
      | none =>
        by_cases hf : final
        · simp [hf]
        · simp [hf]

lemma detectGo_ne_nil_full (qual : List Nat → Bool) (mn mx : Nat) (final : Bool)
    (hpos : 0 < mx) :
    ∀ (fuel off : Nat) (w : List Nat), 0 < fuel → mx ≤ w.length →
      detectGo qual mn mx final fuel off w ≠ [] := by
  intro fuel off w hfuel hfull
  cases fuel with
  | zero => omega
  | succ f =>
    rw [detectGo]
    have hw : w ≠ [] := by
      intro h
      subst h
      simp at hfull
      omega
    rw [if_neg hw]
    obtain ⟨c, hc⟩ := @firstCut_full qual mn mx w hfull
    rw [hc]
    simp

lemma detectGo_ne_nil_final (qual : List Nat → Bool) (mn mx : Nat) :
    ∀ (fuel off : Nat) (w : List Nat), 0 < fuel → w ≠ [] →
      detectGo qual mn mx true fuel off w ≠ [] := by
  intro fuel off w hfuel hw
  cases fuel with
  | zero => omega
  | succ f =>
    rw [detectGo]
    rw [if_neg hw]
    cases hc : firstCut qual mn mx w with
    | some c => simp
    | none => simp

/-! ### Facts about relContig, contiguousFromB and materialize -/

lemma relContig_mem_bounds :
    ∀ (cs : List (Nat × Nat)) (u : Nat), relContig u cs = true →
      ∀ p ∈ cs, u ≤ p.1 ∧ p.1 + p.2 ≤ u + pairsSum cs := by
  intro cs
  induction cs with
  | nil => simp
  | cons q qs ih =>
    intro u hcontig p hp
    simp only [relContig, Bool.and_eq_true, beq_iff_eq] at hcontig
    obtain ⟨hq, hrest⟩ := hcontig
    rcases List.mem_cons.mp hp with h | h
    · rw [h]
      simp only [pairsSum_cons]
      omega
    · have := (ih (u + q.2) hrest) p h
      simp only [pairsSum_cons]
      omega

lemma contiguousFromB_append (a b : List ChunkWithData) :
    ∀ n, contiguousFromB n (a ++ b) =
      (contiguousFromB n a && contiguousFromB (n + chunksLen a) b) := by
  induction a with
  | nil => intro n; simp [contiguousFromB]
  | cons c cs ih =>
    intro n
    have hL : contiguousFromB n ((c :: cs) ++ b) =
        ((c.offset == n) && contiguousFromB (n + c.length) (cs ++ b)) := rfl
    have hR : contiguousFromB n (c :: cs) =
        ((c.offset == n) && contiguousFromB (n + c.length) cs) := rfl
    rw [hL, hR, ih (n + c.length), chunksLen_cons, Bool.and_assoc, Nat.add_assoc]

lemma contiguousFromB_mem_bounds :
    ∀ (cs : List ChunkWithData) (n : Nat), contiguousFromB n cs = true →
      ∀ c ∈ cs, n ≤ c.offset ∧ c.offset + c.length ≤ n + chunksLen cs := by
  intro cs
  induction cs with
  | nil => simp
  | cons d ds ih =>
    intro n hcontig c hc
    simp only [contiguousFromB, Bool.and_eq_true, beq_iff_eq] at hcontig
    obtain ⟨hd, hrest⟩ := hcontig
    rcases List.mem_cons.mp hc with h | h
    · subst h
      have := ih (n + c.length) hrest
      simp only [chunksLen_cons]
      omega
    · have := (ih (n + d.length) hrest) c h
      simp only [chunksLen_cons]
      omega

lemma contiguousFromB_head (cs : List ChunkWithData) (n : Nat)
    (h : contiguousFromB n cs = true) :
    ∀ c, cs.head? = some c → c.offset = n := by
  cases cs with
  | nil => simp
  | cons d ds =>
    intro c hc
    simp only [List.head?_cons, Option.some.injEq] at hc
    subst hc
    simp only [contiguousFromB, Bool.and_eq_true, beq_iff_eq] at h
    exact h.1

lemma contiguousFromB_adjacent :
    ∀ (cs : List ChunkWithData) (n : Nat), contiguousFromB n cs = true →
      ∀ (i : Nat) (c1 c2 : ChunkWithData), cs[i]? = some c1 → cs[i + 1]? = some c2 →
        c1.offset + c1.length = c2.offset := by
  intro cs
  induction cs with
  | nil => intro n h i c1 c2 h1; simp at h1
  | cons d ds ih =>
    intro n hcontig i c1 c2 h1 h2
    simp only [contiguousFromB, Bool.and_eq_true, beq_iff_eq] at hcontig
    obtain ⟨hd, hrest⟩ := hcontig
    cases i with
    | zero =>
      have h1h : d = c1 := by simpa using h1
      simp only [List.getElem?_cons_succ] at h2
      have hhead : ∀ c, ds.head? = some c → c.offset = n + d.length :=
        contiguousFromB_head ds (n + d.length) hrest
      have h2h : ds.head? = some c2 := by
        cases ds with
        | nil => simp at h2
        | cons e es =>
          have : e = c2 := by simpa using h2
          simp [this]
      rw [← h1h, hhead c2 h2h, hd]
    | succ j =>
      simp only [List.getElem?_cons_succ] at h1 h2
      exact ih (n + d.length) hrest j c1 c2 h1 h2

lemma materialize_map_length (buf : List Nat) (g : Nat) :
    ∀ (cs : List (Nat × Nat)) (u : Nat),
      (materialize buf g u cs).map (fun c => c.length) = cs.map Prod.snd := by
  intro cs
  induction cs with
  | nil => intro u; simp [materialize]
  | cons p ps ih => intro u; simp [materialize, ih (u + p.2)]

lemma materialize_sum (buf : List Nat) (g : Nat) (cs : List (Nat × Nat)) (u : Nat) :
    chunksLen (materialize buf g u cs) = pairsSum cs := by
  rw [chunksLen, materialize_map_length, pairsSum]

lemma materialize_contig (buf : List Nat) (g : Nat) :
    ∀ (cs : List (Nat × Nat)) (u : Nat), relContig u cs = true →
      contiguousFromB (g + u) (materialize buf g u cs) = true := by
  intro cs
  induction cs with
  | nil => intro u h; simp [materialize, contiguousFromB]
  | cons p ps ih =>
    intro u h
    simp only [relContig, Bool.and_eq_true, beq_iff_eq] at h
    obtain ⟨hp, hrest⟩ := h
    simp only [materialize, contiguousFromB, Bool.and_eq_true, beq_iff_eq]
    constructor
    · rw [hp]
    · have := ih (u + p.2) hrest
      rw [← Nat.add_assoc] at this
      exact this

lemma materialize_mem (buf : List Nat) (g : Nat) :
    ∀ (cs : List (Nat × Nat)) (u : Nat), relContig u cs = true →
      ∀ ch ∈ materialize buf g u cs, ∃ p ∈ cs,
        ch.offset = g + p.1 ∧ ch.length = p.2 ∧ ch.data = (buf.drop p.1).take p.2 := by
  intro cs
  induction cs with
  | nil => intro u h; simp [materialize]
  | cons p ps ih =>
    intro u h ch hch
    simp only [relContig, Bool.and_eq_true, beq_iff_eq] at h
    obtain ⟨hp, hrest⟩ := h
    simp only [materialize] at hch
    rcases List.mem_cons.mp hch with hh | hh
    · refine ⟨p, List.mem_cons_self p ps, ?_⟩
      rw [hh]
      exact ⟨rfl, rfl, by rw [hp]⟩
    · obtain ⟨q, hq, hfacts⟩ := ih (u + p.2) hrest ch hh
      exact ⟨q, List.mem_cons_of_mem p hq, hfacts⟩

/-! ### Slice lemmas -/

lemma slice_append_stable {S T : List Nat} {off len : Nat} (h : off + len ≤ S.length) :
    ((S ++ T).drop off).take len = (S.drop off).take len := by
  rw [List.drop_append_of_le_length (by omega)]
  rw [List.take_append_of_le_length (by simp only [List.length_drop]; omega)]

lemma slice_length {S : List Nat} {off len : Nat} (h : off + len ≤ S.length) :
    ((S.drop off).take len).length = len := by
  simp only [List.length_take, List.length_drop]
  omega

/-! ### Detector facts lifted to detect -/

lemma detect_sum_le (qual : List Nat → Bool) (mn avg mx : Nat) (final : Bool) (w : List Nat) :
    pairsSum (detect qual mn avg mx final w) ≤ w.length :=
  detectGo_sum_le qual mn mx final (w.length + 1) 0 w

lemma detect_true_sum (qual : List Nat → Bool) (mn avg mx : Nat) (w : List Nat)
    (hmn : 0 < mn) (hmx : mn ≤ mx) :
    pairsSum (detect qual mn avg mx true w) = w.length :=
  detectGo_true_sum qual mn mx hmn hmx (w.length + 1) 0 w (by omega)

lemma detect_relContig (qual : List Nat → Bool) (mn avg mx : Nat) (final : Bool)
    (w : List Nat) : relContig 0 (detect qual mn avg mx final w) = true :=
  detectGo_relContig qual mn mx final (w.length + 1) 0 w

lemma detect_le_mx (qual : List Nat → Bool) (mn avg mx : Nat) (final : Bool) (w : List Nat) :
    ∀ p ∈ detect qual mn avg mx final w, p.2 ≤ mx :=
  detectGo_le_mx qual mn mx final (w.length + 1) 0 w

lemma detect_min_false (qual : List Nat → Bool) (mn avg mx : Nat) (w : List Nat)
    (hmx : mn ≤ mx) : ∀ p ∈ detect qual mn avg mx false w, mn ≤ p.2 :=
  detectGo_min_false qual mn mx hmx (w.length + 1) 0 w

lemma detect_pos (qual : List Nat → Bool) (mn avg mx : Nat) (final : Bool) (w : List Nat)
    (hmn : 0 < mn) (hmx : mn ≤ mx) : ∀ p ∈ detect qual mn avg mx final w, 1 ≤ p.2 :=
  detectGo_pos qual mn mx final hmn hmx (w.length + 1) 0 w

lemma detect_dropLast_min (qual : List Nat → Bool) (mn avg mx : Nat) (final : Bool)
    (w : List Nat) (hmx : mn ≤ mx) :
    ∀ p ∈ (detect qual mn avg mx final w).dropLast, mn ≤ p.2 :=
  detectGo_dropLast_min qual mn mx final hmx (w.length + 1) 0 w

lemma detect_ne_nil_full (qual : List Nat → Bool) (mn avg mx : Nat) (final : Bool)
    (w : List Nat) (hpos : 0 < mx) (hfull : mx ≤ w.length) :
    detect qual mn avg mx final w ≠ [] :=
  detectGo_ne_nil_full qual mn mx final hpos (w.length + 1) 0 w (by omega) hfull

lemma detect_ne_nil_final (qual : List Nat → Bool) (mn avg mx : Nat) (w : List Nat)
    (hw : w ≠ []) : detect qual mn avg mx true w ≠ [] :=
  detectGo_ne_nil_final qual mn mx (w.length + 1) 0 w (by omega) hw

/-! ### Canonical form of a render pass -/

lemma render_chunks_eq (qual : List Nat → Bool) (eof : Bool) (st : FastCDCWrapper) :
    render_chunks qual eof st =
      { st with
        chunks := st.chunks ++ materialize st.buf st.global_offset 0
          (detect qual st.min st.avg st.max eof st.buf)
        global_offset := st.global_offset +
          pairsSum (detect qual st.min st.avg st.max eof st.buf)
        buf := st.buf.drop (pairsSum (detect qual st.min st.avg st.max eof st.buf)) } := by
  cases st with
  | mk mn avg mx buf g chunks =>
    unfold render_chunks
    dsimp only
    by_cases h : detect qual mn avg mx eof buf = []
    · rw [if_pos h, h]
      simp [materialize]
    · rw [if_neg h]

/-- Fields other than the window, the global offset and the chunk queue are
never changed by a render pass. -/
lemma render_chunks_fields (qual : List Nat → Bool) (eof : Bool) (st : FastCDCWrapper) :
    (render_chunks qual eof st).min = st.min ∧ (render_chunks qual eof st).avg = st.avg ∧
      (render_chunks qual eof st).max = st.max := by
  rw [render_chunks_eq]
  exact ⟨rfl, rfl, rfl⟩

/-! ### The running-state invariant of the write loop -/

lemma render_full_used (qual : List Nat → Bool) (st : FastCDCWrapper)
    (h1 : 0 < st.min) (h2 : st.min ≤ st.max) (hfull : st.max ≤ st.buf.length) :
    1 ≤ pairsSum (detect qual st.min st.avg st.max false st.buf) := by
  have hne := detect_ne_nil_full qual st.min st.avg st.max false st.buf (by omega) hfull
  cases hd : detect qual st.min st.avg st.max false st.buf with
  | nil => exact absurd hd hne
  | cons p ps =>
    have hp : 1 ≤ p.2 := by
      refine detect_pos qual st.min st.avg st.max false st.buf h1 h2 p ?_
      rw [hd]
      exact List.mem_cons_self p ps
    rw [pairsSum_cons]
    omega

lemma render_full_ok (qual : List Nat → Bool) (st : FastCDCWrapper)
    (h1 : 0 < st.min) (h2 : st.min ≤ st.max) (hfull : st.buf.length = st.max) :
    Ok (render_chunks qual false st) := by
  rw [render_chunks_eq]
  refine ⟨h1, h2, ?_⟩
  simp only [List.length_drop]
  have hused := render_full_used qual st h1 h2 (by omega)
  have hle := detect_sum_le qual st.min st.avg st.max false st.buf
  omega

lemma step1_ok (qual : List Nat → Bool) (b : Nat) (st : FastCDCWrapper) (h : Ok st) :
    Ok (step1 qual st b) := by
  obtain ⟨h1, h2, h3⟩ := h
  unfold step1
  dsimp only
  by_cases hfull : (st.buf ++ [b]).length = st.max
  · rw [if_pos hfull]
    exact render_full_ok qual { st with buf := st.buf ++ [b] } h1 h2 hfull
  · rw [if_neg hfull]
    refine ⟨h1, h2, ?_⟩
    simp only [List.length_append, List.length_singleton] at hfull ⊢
    omega

lemma feed_ok (qual : List Nat → Bool) (s : List Nat) :
    ∀ st : FastCDCWrapper, Ok st → Ok (feed qual st s) := by
  induction s with
  | nil => intro st h; exact h
  | cons b bs ih => intro st h; exact ih (step1 qual st b) (step1_ok qual b st h)

lemma feed_append (qual : List Nat → Bool) (st : FastCDCWrapper) (a b : List Nat) :
    feed qual st (a ++ b) = feed qual (feed qual st a) b := by
  simp [feed]

/-! ### The write loop is the byte-at-a-time feed -/

lemma feed_bulk (qual : List Nat → Bool) :
    ∀ (cur : List Nat) (st : FastCDCWrapper),
      st.buf.length < st.max → st.buf.length + cur.length ≤ st.max →
      feed qual st cur =
        (if st.buf.length + cur.length = st.max
         then render_chunks qual false { st with buf := st.buf ++ cur }
         else { st with buf := st.buf ++ cur }) := by
  intro cur
  induction cur with
  | nil =>
    intro st h hle
    rw [if_neg (by simp only [List.length_nil]; omega)]
    show st = { st with buf := st.buf ++ [] }
    rw [List.append_nil]
  | cons c cs ih =>
    intro st h hle
    show feed qual (step1 qual st c) cs = _
    unfold step1
    dsimp only
    by_cases hfull : (st.buf ++ [c]).length = st.max
    · have hcs : cs = [] := by
        simp only [List.length_append, List.length_singleton] at hfull
        simp only [List.length_cons] at hle
        cases cs with
        | nil => rfl
        | cons d ds =>
          exfalso
          simp only [List.length_cons] at hle
          omega
      rw [if_pos hfull]
      subst hcs
      show render_chunks qual false { st with buf := st.buf ++ [c] } = _
      rw [if_pos (by
        simp only [List.length_cons, List.length_nil]
        simp only [List.length_append, List.length_singleton] at hfull
        omega)]
    · rw [if_neg hfull]
      have hb1 : ({ st with buf := st.buf ++ [c] } : FastCDCWrapper).buf.length <
          ({ st with buf := st.buf ++ [c] } : FastCDCWrapper).max := by
        dsimp only
        simp only [List.length_append, List.length_singleton] at hfull ⊢
        simp only [List.length_cons] at hle
        omega
      have hb2 : ({ st with buf := st.buf ++ [c] } : FastCDCWrapper).buf.length + cs.length ≤
          ({ st with buf := st.buf ++ [c] } : FastCDCWrapper).max := by
        dsimp only
        simp only [List.length_append, List.length_singleton]
        simp only [List.length_cons] at hle
        omega
      rw [ih { st with buf := st.buf ++ [c] } hb1 hb2]
      dsimp only
      have heq : (st.buf ++ [c]) ++ cs = st.buf ++ c :: cs := by simp
      have hlen : (st.buf ++ [c]).length + cs.length = st.buf.length + (c :: cs).length := by
        simp only [List.length_append, List.length_singleton, List.length_cons,
          List.length_nil]
        omega
      rw [heq, hlen]

lemma writeGo_eq_feed (qual : List Nat → Bool) :
    ∀ (fuel wo : Nat) (st : FastCDCWrapper) (w : List Nat),
      Ok st → wo ≤ w.length → 2 * (w.length - wo) + 1 ≤ fuel →
      writeGo qual fuel st w wo = some (feed qual st (w.drop wo), w.length) := by
  intro fuel
  induction fuel with
  | zero => intro wo st w hok hwo hfuel; omega
  | succ f ih =>
    intro wo st w hok hwo hfuel
    obtain ⟨h1, h2, h3⟩ := hok
    rw [writeGo]
    by_cases hdone : wo = w.length
    · rw [if_pos hdone]
      subst hdone
      rw [List.drop_length]
      rfl
    · rw [if_neg hdone]
      dsimp only
      set room := min (st.max - st.buf.length) (w.length - wo) with hroomdef
      set cur := (w.drop wo).take room with hcurdef
      have hwolt : wo < w.length := by omega
      have hroom1 : 1 ≤ room := by rw [hroomdef]; omega
      have hroomle : room ≤ w.length - wo := by rw [hroomdef]; omega
      have hroomcap : room ≤ st.max - st.buf.length := by rw [hroomdef]; omega
      have hcurlen : cur.length = room := by
        rw [hcurdef]
        simp only [List.length_take, List.length_drop]
        omega
      have hcheck : st.buf.length + cur.length ≤ st.max := by
        rw [hcurlen]
        omega
      simp only [if_pos hcheck]
      have hsplit : w.drop wo = cur ++ w.drop (wo + cur.length) := by
        rw [hcurlen, hcurdef]
        conv_lhs => rw [← List.take_append_drop room (w.drop wo)]
        rw [List.drop_drop]
      rw [hsplit, feed_append]
      rw [feed_bulk qual cur st h3 hcheck]
      simp only [List.length_append]
      set st2 := if st.buf.length + cur.length = st.max
        then render_chunks qual false { st with buf := st.buf ++ cur }
        else { st with buf := st.buf ++ cur } with hst2
      have hok2 : Ok st2 := by
        rw [hst2]
        by_cases hfull : st.buf.length + cur.length = st.max
        · rw [if_pos hfull]
          exact render_full_ok qual { st with buf := st.buf ++ cur } h1 h2
            (by simp only [List.length_append]; omega)
        · rw [if_neg hfull]
          exact ⟨h1, h2, by simp only [List.length_append]; omega⟩
      exact ih (wo + cur.length) st2 w hok2 (by rw [hcurlen]; omega) (by rw [hcurlen]; omega)

lemma write_eq_feed (qual : List Nat → Bool) (st : FastCDCWrapper) (w : List Nat)
    (hok : Ok st) : write qual st w = some (feed qual st w, w.length) := by
  unfold write
  have h := writeGo_eq_feed qual (2 * w.length + 2) 0 st w hok (by omega) (by omega)
  rw [h, List.drop_zero]

lemma runWrites_eq_feed (qual : List Nat → Bool) :
    ∀ (parts : List (List Nat)) (st : FastCDCWrapper), Ok st →
      runWrites qual st parts = some (feed qual st parts.flatten) := by
  intro parts
  induction parts with
  | nil => intro st h; rfl
  | cons p ps ih =>
    intro st h
    rw [runWrites]
    rw [write_eq_feed qual st p h]
    dsimp only
    rw [ih (feed qual st p) (feed_ok qual p st h)]
    rw [List.flatten_cons, feed_append]

/-! ### The full invariant relating a state to the stream fed so far -/

lemma wrapInv_ok {S : List Nat} {st : FastCDCWrapper} (h : WrapInv S st) : Ok st :=
  ⟨h.1.1, h.1.2.1, h.2⟩

lemma render_false_invCore (qual : List Nat → Bool) (S : List Nat) (st : FastCDCWrapper)
    (h : InvCore S st) : InvCore S (render_chunks qual false st) := by
  obtain ⟨h1, h2, hbuf, hlen, hcontig, hsum, hdata⟩ := h
  rw [render_chunks_eq]
  set cs := detect qual st.min st.avg st.max false st.buf with hcs
  have hrel : relContig 0 cs = true := detect_relContig qual st.min st.avg st.max false st.buf
  have hsumle : pairsSum cs ≤ st.buf.length := detect_sum_le qual st.min st.avg st.max false st.buf
  refine ⟨h1, h2, ?_, ?_, ?_, ?_, ?_⟩
  · dsimp only
    rw [hbuf, List.drop_drop]
  · dsimp only
    simp only [List.length_drop]
    omega
  · dsimp only
    rw [contiguousFromB_append]
    have hblock := materialize_contig st.buf st.global_offset cs 0 hrel
    rw [Nat.add_zero] at hblock
    simp [hcontig, hsum, hblock]
  · dsimp only
    rw [chunksLen_append, hsum, materialize_sum]
  · dsimp only
    intro c hc
    rcases List.mem_append.mp hc with hold | hnew
    · exact hdata c hold
    · obtain ⟨p, hp, hoff, hlength, hdat⟩ :=
        materialize_mem st.buf st.global_offset cs 0 hrel c hnew
      refine ⟨?_, ?_, ?_⟩
      · rw [hdat, hoff, hlength, hbuf, List.drop_drop]
      · rw [hlength]
        exact detect_min_false qual st.min st.avg st.max st.buf h2 p hp
      · rw [hlength]
        exact detect_le_mx qual st.min st.avg st.max false st.buf p hp

lemma step1_inv (qual : List Nat → Bool) (S : List Nat) (st : FastCDCWrapper) (b : Nat)
    (h : WrapInv S st) : WrapInv (S ++ [b]) (step1 qual st b) := by
  obtain ⟨⟨h1, h2, hbuf, hlen, hcontig, hsum, hdata⟩, hstrict⟩ := h
  have hgle : st.global_offset ≤ S.length := by omega
  have hcore1 : InvCore (S ++ [b]) { st with buf := st.buf ++ [b] } := by
    refine ⟨h1, h2, ?_, ?_, hcontig, hsum, ?_⟩
    · dsimp only
      rw [List.drop_append_of_le_length hgle, hbuf]
    · dsimp only
      simp only [List.length_append, List.length_singleton]
      omega
    · dsimp only
      intro c hc
      obtain ⟨hd, hmn2, hmx2⟩ := hdata c hc
      have hcb := contiguousFromB_mem_bounds st.chunks 0 hcontig c hc
      refine ⟨?_, hmn2, hmx2⟩
      rw [hd]
      exact (slice_append_stable (by omega)).symm
  unfold step1
  dsimp only
  by_cases hfull : (st.buf ++ [b]).length = st.max
  · rw [if_pos hfull]
    exact ⟨render_false_invCore qual (S ++ [b]) _ hcore1,
      (render_full_ok qual { st with buf := st.buf ++ [b] } h1 h2 hfull).2.2⟩
  · rw [if_neg hfull]
    refine ⟨hcore1, ?_⟩
    dsimp only
    simp only [List.length_append, List.length_singleton] at hfull ⊢
    omega

lemma feed_inv (qual : List Nat → Bool) :
    ∀ (s S : List Nat) (st : FastCDCWrapper), WrapInv S st → WrapInv (S ++ s) (feed qual st s) := by
  intro s
  induction s with
  | nil => intro S st h; simpa using h
  | cons b bs ih =>
    intro S st h
    have hstep := step1_inv qual S st b h
    have hrec := ih (S ++ [b]) (step1 qual st b) hstep
    rw [List.append_assoc] at hrec
    exact hrec

lemma new_inv (mn avg mx : Nat) (h1 : 0 < mn) (h2 : mn ≤ mx) :
    WrapInv [] (new_with_sizes mn avg mx) := by
  constructor
  · refine ⟨h1, h2, rfl, rfl, rfl, rfl, ?_⟩
    intro c hc
    simp [new_with_sizes] at hc
  · show ([] : List Nat).length < mx
    simp only [List.length_nil]
    omega

lemma feed_new_inv (qual : List Nat → Bool) (mn avg mx : Nat) (h1 : 0 < mn) (h2 : mn ≤ mx)
    (s : List Nat) : WrapInv s (feed qual (new_with_sizes mn avg mx) s) := by
  have h := feed_inv qual s [] (new_with_sizes mn avg mx) (new_inv mn avg mx h1 h2)
  simpa using h

lemma chunks_nil_of_len_zero (cs : List ChunkWithData)
    (hpos : ∀ c ∈ cs, 1 ≤ c.length) (hz : chunksLen cs = 0) : cs = [] := by
  cases cs with
  | nil => rfl
  | cons c cs2 =>
    exfalso
    have := hpos c (List.mem_cons_self c cs2)
    rw [chunksLen_cons] at hz
    omega

/-- Postcondition of `finish` starting from an invariant state: the window is
fully flushed, the chunks tile the whole stream, each chunk holds the right
bytes, every chunk is at most `max` long, and every chunk but the last is at
least `min` long. -/
lemma finish_spec (qual : List Nat → Bool) (S : List Nat) (st : FastCDCWrapper)
    (h : WrapInv S st) :
    (finish qual st).min = st.min ∧ (finish qual st).max = st.max ∧
    (finish qual st).buf = [] ∧
    (finish qual st).global_offset = S.length ∧
    contiguousFromB 0 (finish qual st).chunks = true ∧
    chunksLen (finish qual st).chunks = S.length ∧
    (∀ c ∈ (finish qual st).chunks,
      c.data = (S.drop c.offset).take c.length ∧ c.data.length = c.length ∧
      1 ≤ c.length ∧ c.length ≤ st.max) ∧
    (∀ c ∈ (finish qual st).chunks.dropLast, st.min ≤ c.length) ∧
    (S = [] → (finish qual st).chunks = []) := by
  obtain ⟨⟨h1, h2, hbuf, hlen, hcontig, hsum, hdata⟩, hstrict⟩ := h
  unfold finish
  rw [render_chunks_eq]
  set cs := detect qual st.min st.avg st.max true st.buf with hcs
  have hrel : relContig 0 cs = true := detect_relContig qual st.min st.avg st.max true st.buf
  have hsuml : pairsSum cs = st.buf.length :=
    detect_true_sum qual st.min st.avg st.max st.buf h1 h2
  have hgle : st.global_offset ≤ S.length := by omega
  refine ⟨rfl, rfl, ?_, ?_, ?_, ?_, ?_, ?_, ?_⟩
  · dsimp only
    rw [hsuml, List.drop_length]
  · dsimp only
    rw [hsuml]
    omega
  · dsimp only
    rw [contiguousFromB_append]
    have hblock := materialize_contig st.buf st.global_offset cs 0 hrel
    rw [Nat.add_zero] at hblock
    simp [hcontig, hsum, hblock]
  · dsimp only
    rw [chunksLen_append, hsum, materialize_sum, hsuml]
    omega
  · dsimp only
    intro c hc
    rcases List.mem_append.mp hc with hold | hnew
    · obtain ⟨hd, hmn2, hmx2⟩ := hdata c hold
      have hcb := contiguousFromB_mem_bounds st.chunks 0 hcontig c hold
      refine ⟨hd, ?_, by omega, hmx2⟩
      rw [hd]
      exact slice_length (by omega)
    · obtain ⟨p, hp, hoff, hlength, hdat⟩ :=
        materialize_mem st.buf st.global_offset cs 0 hrel c hnew
      have hpb := relContig_mem_bounds cs 0 hrel p hp
      have hple : p.1 + p.2 ≤ st.buf.length := by
        rw [hsuml] at hpb
        omega
      have hoffbound : c.offset + c.length ≤ S.length := by
        rw [hoff, hlength]
        omega
      have hdata2 : c.data = (S.drop c.offset).take c.length := by
        rw [hdat, hoff, hlength, hbuf, List.drop_drop]
      refine ⟨hdata2, ?_, ?_, ?_⟩
      · rw [hdata2]
        exact slice_length hoffbound
      · rw [hlength]
        exact detect_pos qual st.min st.avg st.max true st.buf h1 h2 p hp
      · rw [hlength]
        exact detect_le_mx qual st.min st.avg st.max true st.buf p hp
  · dsimp only
    intro c hc
    by_cases hmat : materialize st.buf st.global_offset 0 cs = []
    · rw [hmat, List.append_nil] at hc
      exact (hdata c (List.dropLast_subset st.chunks hc)).2.1
    · rw [List.dropLast_append_of_ne_nil st.chunks hmat] at hc
      rcases List.mem_append.mp hc with hold | hnew
      · exact (hdata c hold).2.1
      · have hlenmap : c.length ∈
            ((materialize st.buf st.global_offset 0 cs).dropLast.map (fun x => x.length)) :=
          List.mem_map_of_mem (fun x => x.length) hnew
        rw [List.map_dropLast, materialize_map_length, ← List.map_dropLast] at hlenmap
        obtain ⟨p, hpmem, hpe⟩ := List.mem_map.mp hlenmap
        rw [← hpe]
        exact detect_dropLast_min qual st.min st.avg st.max true st.buf h2 p hpmem
  · dsimp only
    intro hS
    subst hS
    simp only [List.length_nil] at hlen
    have hbufnil : st.buf = [] := List.eq_nil_of_length_eq_zero (by omega)
    have hchunksnil : st.chunks = [] := by
      refine chunks_nil_of_len_zero st.chunks ?_ (by omega)
      intro c hc
      have := (hdata c hc).2.1
      omega
    have hcsnil : cs = [] := by
      rw [hcs, hbufnil]
      simp [detect, detectGo]
    rw [hchunksnil, hcsnil]
    simp [materialize]

lemma step1_fields (qual : List Nat → Bool) (b : Nat) (st : FastCDCWrapper) :
    (step1 qual st b).min = st.min ∧ (step1 qual st b).avg = st.avg ∧
      (step1 qual st b).max = st.max := by
  unfold step1
  dsimp only
  by_cases hfull : (st.buf ++ [b]).length = st.max
  · rw [if_pos hfull]
    exact render_chunks_fields qual false { st with buf := st.buf ++ [b] }
  · rw [if_neg hfull]
    exact ⟨rfl, rfl, rfl⟩

lemma feed_fields (qual : List Nat → Bool) (s : List Nat) :
    ∀ st : FastCDCWrapper, (feed qual st s).min = st.min ∧ (feed qual st s).avg = st.avg ∧
      (feed qual st s).max = st.max := by
  induction s with
  | nil => intro st; exact ⟨rfl, rfl, rfl⟩
  | cons b bs ih =>
    intro st
    have h1 := step1_fields qual b st
    have h2 := ih (step1 qual st b)
    exact ⟨h2.1.trans h1.1, h2.2.1.trans h1.2.1, h2.2.2.trans h1.2.2⟩

/-! ### Claim theorems -/

/-- C1 — Write-granularity invariance: for every byte sequence and every
partition of it into a sequence of `write` (append) calls, running the engine
over the partition followed by `finish` produces exactly the same chunk
sequence (offsets, lengths and data) as a single `write` of the whole
sequence followed by `finish`, for any validly configured engine and any
boundary-qualification function. -/
theorem c1_write_granularity_invariance (qual : List Nat → Bool) (mn avg mx : Nat)
    (h1 : 0 < mn) (h2 : mn ≤ avg) (h3 : avg ≤ mx) (parts : List (List Nat)) :
    chunkStream qual mn avg mx parts = chunkStream qual mn avg mx [parts.flatten] := by
  have hok : Ok (new_with_sizes mn avg mx) :=
    wrapInv_ok (new_inv mn avg mx h1 (by omega))
  unfold chunkStream
  rw [runWrites_eq_feed qual parts (new_with_sizes mn avg mx) hok,
    runWrites_eq_feed qual [parts.flatten] (new_with_sizes mn avg mx) hok]
  simp

/-- Witness for C1 at a concrete partition. -/
theorem c1_write_granularity_invariance_witness :
    0 < 2 ∧ 2 ≤ 3 ∧ 3 ≤ 4 ∧
    chunkStream (fun w => w.length % 3 == 0) 2 3 4 [[1, 2, 3], [4, 5, 6], [7]] =
      chunkStream (fun w => w.length % 3 == 0) 2 3 4 [([[1, 2, 3], [4, 5, 6], [7]] : List (List Nat)).flatten] :=
  ⟨by decide, by decide, by decide,
    c1_write_granularity_invariance (fun w => w.length % 3 == 0) 2 3 4
      (by decide) (by decide) (by decide) [[1, 2, 3], [4, 5, 6], [7]]⟩

/-- C2 — Coverage: for every sequence of `write` calls followed by `finish`,
the engine succeeds and the sum of the lengths of all produced chunks equals
the total number of bytes appended; appending zero bytes in total yields zero
chunks. -/
theorem c2_coverage (qual : List Nat → Bool) (mn avg mx : Nat)
    (h1 : 0 < mn) (h2 : mn ≤ avg) (h3 : avg ≤ mx) (parts : List (List Nat)) :
    chunkStream qual mn avg mx parts = some (chunkedBytes qual mn avg mx parts.flatten) ∧
    chunksLen (chunkedBytes qual mn avg mx parts.flatten) = parts.flatten.length ∧
    (parts.flatten = [] → chunkedBytes qual mn avg mx parts.flatten = []) := by
  have hmx : mn ≤ mx := by omega
  have hinv := feed_new_inv qual mn avg mx h1 hmx parts.flatten
  have hfin := finish_spec qual parts.flatten
    (feed qual (new_with_sizes mn avg mx) parts.flatten) hinv
  refine ⟨?_, ?_, ?_⟩
  · unfold chunkStream
    rw [runWrites_eq_feed qual parts (new_with_sizes mn avg mx)
      (wrapInv_ok (new_inv mn avg mx h1 hmx))]
    rfl
  · exact hfin.2.2.2.2.2.1
  · intro hnil
    exact hfin.2.2.2.2.2.2.2.2 hnil

/-- Witness for C2, including the zero-byte case checked separately. -/
theorem c2_coverage_witness :
    0 < 2 ∧ 2 ≤ 3 ∧ 3 ≤ 4 ∧
    (chunkStream (fun _ => false) 2 3 4 [[9, 9], [9, 9, 9]] =
      some (chunkedBytes (fun _ => false) 2 3 4 ([[9, 9], [9, 9, 9]] : List (List Nat)).flatten) ∧
    chunksLen (chunkedBytes (fun _ => false) 2 3 4 ([[9, 9], [9, 9, 9]] : List (List Nat)).flatten) =
      ([[9, 9], [9, 9, 9]] : List (List Nat)).flatten.length ∧
    (([[9, 9], [9, 9, 9]] : List (List Nat)).flatten = [] →
      chunkedBytes (fun _ => false) 2 3 4 ([[9, 9], [9, 9, 9]] : List (List Nat)).flatten = [])) :=
  ⟨by decide, by decide, by decide,
    c2_coverage (fun _ => false) 2 3 4 (by decide) (by decide) (by decide) [[9, 9], [9, 9, 9]]⟩

/-- C3 — Contiguity: the full chunk sequence produced by one engine instance
starts at offset 0 and is gapless: each chunk's offset plus its length equals
the next chunk's offset; the global-offset translation preserves this across
render passes. -/
theorem c3_contiguity (qual : List Nat → Bool) (mn avg mx : Nat)
    (h1 : 0 < mn) (h2 : mn ≤ avg) (h3 : avg ≤ mx) (parts : List (List Nat)) :
    chunkStream qual mn avg mx parts = some (chunkedBytes qual mn avg mx parts.flatten) ∧
    contiguousFromB 0 (chunkedBytes qual mn avg mx parts.flatten) = true ∧
    (∀ c, (chunkedBytes qual mn avg mx parts.flatten).head? = some c → c.offset = 0) ∧
    (∀ (i : Nat) (c1 c2 : ChunkWithData),
      (chunkedBytes qual mn avg mx parts.flatten)[i]? = some c1 →
      (chunkedBytes qual mn avg mx parts.flatten)[i + 1]? = some c2 →
      c1.offset + c1.length = c2.offset) := by
  have hmx : mn ≤ mx := by omega
  have hinv := feed_new_inv qual mn avg mx h1 hmx parts.flatten
  have hfin := finish_spec qual parts.flatten
    (feed qual (new_with_sizes mn avg mx) parts.flatten) hinv
  have hcontig : contiguousFromB 0 (chunkedBytes qual mn avg mx parts.flatten) = true :=
    hfin.2.2.2.2.1
  refine ⟨?_, hcontig, ?_, ?_⟩
  · unfold chunkStream
    rw [runWrites_eq_feed qual parts (new_with_sizes mn avg mx)
      (wrapInv_ok (new_inv mn avg mx h1 hmx))]
    rfl
  · exact contiguousFromB_head (chunkedBytes qual mn avg mx parts.flatten) 0 hcontig
  · exact contiguousFromB_adjacent (chunkedBytes qual mn avg mx parts.flatten) 0 hcontig

/-- Witness for C3 at a concrete input. -/
theorem c3_contiguity_witness :
    0 < 2 ∧ 2 ≤ 3 ∧ 3 ≤ 4 ∧
    chunkStream (fun _ => false) 2 3 4 [[1, 2, 3, 4, 5], [6]] =
      some (chunkedBytes (fun _ => false) 2 3 4 ([[1, 2, 3, 4, 5], [6]] : List (List Nat)).flatten) ∧
    contiguousFromB 0 (chunkedBytes (fun _ => false) 2 3 4 ([[1, 2, 3, 4, 5], [6]] : List (List Nat)).flatten) = true :=
  ⟨by decide, by decide, by decide,
    (c3_contiguity (fun _ => false) 2 3 4 (by decide) (by decide) (by decide)
      [[1, 2, 3, 4, 5], [6]]).1,
    (c3_contiguity (fun _ => false) 2 3 4 (by decide) (by decide) (by decide)
      [[1, 2, 3, 4, 5], [6]]).2.1⟩

/-- C4 — Size bounds: for a validly configured engine (`0 < min ≤ avg ≤ max`),
every produced chunk has length at most `max`, and every produced chunk
except the last has length at least `min`. -/
theorem c4_size_bounds (qual : List Nat → Bool) (mn avg mx : Nat)
    (h1 : 0 < mn) (h2 : mn ≤ avg) (h3 : avg ≤ mx) (parts : List (List Nat)) :
    chunkStream qual mn avg mx parts = some (chunkedBytes qual mn avg mx parts.flatten) ∧
    (∀ c ∈ chunkedBytes qual mn avg mx parts.flatten, c.length ≤ mx) ∧
    (∀ c ∈ (chunkedBytes qual mn avg mx parts.flatten).dropLast, mn ≤ c.length) := by
  have hmx : mn ≤ mx := by omega
  have hinv := feed_new_inv qual mn avg mx h1 hmx parts.flatten
  have hfin := finish_spec qual parts.flatten
    (feed qual (new_with_sizes mn avg mx) parts.flatten) hinv
  have hfld := feed_fields qual parts.flatten (new_with_sizes mn avg mx)
  refine ⟨?_, ?_, ?_⟩
  · unfold chunkStream
    rw [runWrites_eq_feed qual parts (new_with_sizes mn avg mx)
      (wrapInv_ok (new_inv mn avg mx h1 hmx))]
    rfl
  · intro c hc
    have := (hfin.2.2.2.2.2.2.1 c hc).2.2.2
    rw [hfld.2.2] at this
    exact this
  · intro c hc
    have := hfin.2.2.2.2.2.2.2.1 c hc
    rw [hfld.1] at this
    exact this

/-- Witness for C4 at a concrete input. -/
theorem c4_size_bounds_witness :
    0 < 2 ∧ 2 ≤ 3 ∧ 3 ≤ 4 ∧
    (chunkStream (fun _ => false) 2 3 4 [[1, 2], [3, 4, 5, 6, 7]] =
      some (chunkedBytes (fun _ => false) 2 3 4 ([[1, 2], [3, 4, 5, 6, 7]] : List (List Nat)).flatten) ∧
    (∀ c ∈ chunkedBytes (fun _ => false) 2 3 4 ([[1, 2], [3, 4, 5, 6, 7]] : List (List Nat)).flatten,
      c.length ≤ 4) ∧
    (∀ c ∈ (chunkedBytes (fun _ => false) 2 3 4 ([[1, 2], [3, 4, 5, 6, 7]] : List (List Nat)).flatten).dropLast,
      2 ≤ c.length)) :=
  ⟨by decide, by decide, by decide,
    c4_size_bounds (fun _ => false) 2 3 4 (by decide) (by decide) (by decide)
      [[1, 2], [3, 4, 5, 6, 7]]⟩

/-- C5 — Chunk data correctness: each produced chunk carries a data buffer of
exactly `length` bytes equal to the bytes of the concatenated input at
positions `[offset, offset + length)`. -/
theorem c5_chunk_data_correctness (qual : List Nat → Bool) (mn avg mx : Nat)
    (h1 : 0 < mn) (h2 : mn ≤ avg) (h3 : avg ≤ mx) (parts : List (List Nat)) :
    chunkStream qual mn avg mx parts = some (chunkedBytes qual mn avg mx parts.flatten) ∧
    (∀ c ∈ chunkedBytes qual mn avg mx parts.flatten,
      c.data.length = c.length ∧
      c.data = (parts.flatten.drop c.offset).take c.length) := by
  have hmx : mn ≤ mx := by omega
  have hinv := feed_new_inv qual mn avg mx h1 hmx parts.flatten
  have hfin := finish_spec qual parts.flatten
    (feed qual (new_with_sizes mn avg mx) parts.flatten) hinv
  refine ⟨?_, ?_⟩
  · unfold chunkStream
    rw [runWrites_eq_feed qual parts (new_with_sizes mn avg mx)
      (wrapInv_ok (new_inv mn avg mx h1 hmx))]
    rfl
  · intro c hc
    have h := hfin.2.2.2.2.2.2.1 c hc
    exact ⟨h.2.1, h.1⟩

/-- Witness for C5 at a concrete input. -/
theorem c5_chunk_data_correctness_witness :
    0 < 2 ∧ 2 ≤ 3 ∧ 3 ≤ 4 ∧
    (chunkStream (fun _ => false) 2 3 4 [[1, 2, 3], [4, 5]] =
      some (chunkedBytes (fun _ => false) 2 3 4 ([[1, 2, 3], [4, 5]] : List (List Nat)).flatten) ∧
    (∀ c ∈ chunkedBytes (fun _ => false) 2 3 4 ([[1, 2, 3], [4, 5]] : List (List Nat)).flatten,
      c.data.length = c.length ∧
      c.data = ((([[1, 2, 3], [4, 5]] : List (List Nat)).flatten.drop c.offset).take c.length))) :=
  ⟨by decide, by decide, by decide,
    c5_chunk_data_correctness (fun _ => false) 2 3 4 (by decide) (by decide) (by decide)
      [[1, 2, 3], [4, 5]]⟩

/-- C8 — Bounded window: after any sequence of writes the window occupancy is
strictly below the fixed capacity `max` (the capacity field never changes),
so a write landing exactly at capacity has already triggered a render pass;
and a render pass on a completely full window always leaves strictly fewer
than `max` bytes behind, so the append loop makes progress. -/
theorem c8_bounded_window (qual : List Nat → Bool) (mn avg mx : Nat)
    (h1 : 0 < mn) (h2 : mn ≤ avg) (h3 : avg ≤ mx) (parts : List (List Nat)) :
    runWrites qual (new_with_sizes mn avg mx) parts =
      some (feed qual (new_with_sizes mn avg mx) parts.flatten) ∧
    (feed qual (new_with_sizes mn avg mx) parts.flatten).max = mx ∧
    (feed qual (new_with_sizes mn avg mx) parts.flatten).buf.length < mx ∧
    (∀ st : FastCDCWrapper, st.min = mn → st.max = mx → st.buf.length = st.max →
      (render_chunks qual false st).buf.length < st.max) := by
  have hmx : mn ≤ mx := by omega
  have hinv := feed_new_inv qual mn avg mx h1 hmx parts.flatten
  have hmaxf := (feed_fields qual parts.flatten (new_with_sizes mn avg mx)).2.2
  refine ⟨runWrites_eq_feed qual parts (new_with_sizes mn avg mx)
    (wrapInv_ok (new_inv mn avg mx h1 hmx)), hmaxf, ?_, ?_⟩
  · have hlt := hinv.2
    rw [hmaxf] at hlt
    exact hlt
  · intro st hmn hmaxeq hfull
    have h1s : 0 < st.min := by rw [hmn]; exact h1
    have h2s : st.min ≤ st.max := by rw [hmn, hmaxeq]; omega
    have hf := (render_chunks_fields qual false st).2.2
    rw [← hf]
    exact (render_full_ok qual st h1s h2s hfull).2.2

/-- Witness for C8 at a concrete input, with the full-window render clause
instantiated at a concrete full-window state. -/
theorem c8_bounded_window_witness :
    0 < 2 ∧ 2 ≤ 3 ∧ 3 ≤ 4 ∧
    runWrites (fun _ => false) (new_with_sizes 2 3 4) [[1, 2, 3], [4, 5, 6, 7, 8]] =
      some (feed (fun _ => false) (new_with_sizes 2 3 4)
        ([[1, 2, 3], [4, 5, 6, 7, 8]] : List (List Nat)).flatten) ∧
    (feed (fun _ => false) (new_with_sizes 2 3 4)
      ([[1, 2, 3], [4, 5, 6, 7, 8]] : List (List Nat)).flatten).buf.length < 4 ∧
    (render_chunks (fun _ => false) false
      { min := 2, avg := 3, max := 4, buf := [1, 2, 3, 4], global_offset := 0,
        chunks := [] }).buf.length < 4 :=
  ⟨by decide, by decide, by decide,
    (c8_bounded_window (fun _ => false) 2 3 4 (by decide) (by decide) (by decide)
      [[1, 2, 3], [4, 5, 6, 7, 8]]).1,
    (c8_bounded_window (fun _ => false) 2 3 4 (by decide) (by decide) (by decide)
      [[1, 2, 3], [4, 5, 6, 7, 8]]).2.2.1,
    (c8_bounded_window (fun _ => false) 2 3 4 (by decide) (by decide) (by decide)
      [[1, 2, 3], [4, 5, 6, 7, 8]]).2.2.2
      { min := 2, avg := 3, max := 4, buf := [1, 2, 3, 4], global_offset := 0, chunks := [] }
      rfl rfl (by decide)⟩

/-- C6 counterexample — constructing the engine with invalid parameters
(`min = 0`, `avg = 5 > max = 3`) succeeds and returns an ordinary state: no
configuration error is raised at construction time. -/
theorem c6_configuration_validation_counterexample :
    new_with_sizes 0 5 3 =
      { min := 0, avg := 5, max := 3, buf := [], global_offset := 0, chunks := [] } ∧
    ¬ 0 < (new_with_sizes 0 5 3).min ∧
    ¬ (new_with_sizes 0 5 3).avg ≤ (new_with_sizes 0 5 3).max :=
  ⟨rfl, by decide, by decide⟩

/-- C6 amended — the wrapper constructor performs no validation at all: for
every choice of sizes, construction succeeds and merely records the fields;
only the fixed parameters of the public `new` satisfy
`0 < min ≤ avg ≤ max`. -/
theorem c6_construction_performs_no_validation (mn avg mx : Nat) :
    new_with_sizes mn avg mx =
      { min := mn, avg := avg, max := mx, buf := [], global_offset := 0, chunks := [] } ∧
    FastCDCWrapper.new = new_with_sizes MIN_CHUNK_SIZE AVG_CHUNK_SIZE MAX_CHUNK_SIZE ∧
    0 < MIN_CHUNK_SIZE ∧ MIN_CHUNK_SIZE ≤ AVG_CHUNK_SIZE ∧
    AVG_CHUNK_SIZE ≤ MAX_CHUNK_SIZE :=
  ⟨rfl, rfl, by decide, by decide, by decide⟩

/-- C7 counterexample — calling `write` after `finish` on the same instance
is not rejected: it returns an ordinary success (`Ok(1)`) and the byte is
buffered as if the stream simply continued. -/
theorem c7_post_finish_write_counterexample :
    write (fun _ => false) (finish (fun _ => false) (new_with_sizes 1 1 2)) [7] =
      some (({ min := 1, avg := 1, max := 2, buf := [7], global_offset := 0,
                chunks := [] } : FastCDCWrapper), 1) := by
  decide

/-- C7 amended — a `write` issued after `finish` is silently accepted: it
behaves exactly like a normal write on the flushed state, accepting all bytes
and returning their count, with no assertion or error of any kind. -/
theorem c7_post_finish_write_accepted (qual : List Nat → Bool) (mn avg mx : Nat)
    (h1 : 0 < mn) (h2 : mn ≤ avg) (h3 : avg ≤ mx) (parts : List (List Nat)) (w : List Nat) :
    runWrites qual (new_with_sizes mn avg mx) parts =
      some (feed qual (new_with_sizes mn avg mx) parts.flatten) ∧
    write qual (finish qual (feed qual (new_with_sizes mn avg mx) parts.flatten)) w =
      some (feed qual (finish qual (feed qual (new_with_sizes mn avg mx) parts.flatten)) w,
        w.length) := by
  have hmx : mn ≤ mx := by omega
  have hinv := feed_new_inv qual mn avg mx h1 hmx parts.flatten
  have hfin := finish_spec qual parts.flatten
    (feed qual (new_with_sizes mn avg mx) parts.flatten) hinv
  have hfld := feed_fields qual parts.flatten (new_with_sizes mn avg mx)
  refine ⟨runWrites_eq_feed qual parts (new_with_sizes mn avg mx)
    (wrapInv_ok (new_inv mn avg mx h1 hmx)), ?_⟩
  refine write_eq_feed qual (finish qual (feed qual (new_with_sizes mn avg mx) parts.flatten))
    w ⟨?_, ?_, ?_⟩
  · rw [hfin.1, hfld.1]
    exact h1
  · rw [hfin.1, hfin.2.1, hfld.1, hfld.2.2]
    show mn ≤ mx
    omega
  · rw [hfin.2.2.1, hfin.2.1, hfld.2.2]
    show ([] : List Nat).length < mx
    simp only [List.length_nil]
    omega

/-- Witness for C7 amended at a concrete input. -/
theorem c7_post_finish_write_accepted_witness :
    0 < 2 ∧ 2 ≤ 3 ∧ 3 ≤ 4 ∧
    (runWrites (fun _ => false) (new_with_sizes 2 3 4) [[1, 2, 3]] =
      some (feed (fun _ => false) (new_with_sizes 2 3 4)
        ([[1, 2, 3]] : List (List Nat)).flatten) ∧
    write (fun _ => false)
        (finish (fun _ => false) (feed (fun _ => false) (new_with_sizes 2 3 4)
          ([[1, 2, 3]] : List (List Nat)).flatten)) [8, 9] =
      some (feed (fun _ => false)
        (finish (fun _ => false) (feed (fun _ => false) (new_with_sizes 2 3 4)
          ([[1, 2, 3]] : List (List Nat)).flatten)) [8, 9],
        ([8, 9] : List Nat).length)) :=
  ⟨by decide, by decide, by decide,
    c7_post_finish_write_accepted (fun _ => false) 2 3 4 (by decide) (by decide) (by decide)
      [[1, 2, 3]] [8, 9]⟩

/-- C9 — Drain postcondition: `get_pending_chunks` hands the caller exactly
the chunks accumulated since the previous drain, in production order, clears
the internal queue, and an immediately repeated drain returns no chunks. -/
theorem c9_drain_postcondition (st : FastCDCWrapper) (pending : List ChunkWithData) :
    (get_pending_chunks st pending).1 = st.chunks ∧
    (get_pending_chunks st pending).2.chunks = [] ∧
    (get_pending_chunks (get_pending_chunks st pending).2
      (get_pending_chunks st pending).1).1 = [] :=
  ⟨rfl, rfl, rfl⟩

/-- C10 — Drain overwrites the destination: the prior contents of the
caller-supplied vector are discarded and replaced by the pending chunks
(clone semantics), never appended after existing elements, so a caller
accumulating into one vector loses the earlier chunks. -/
theorem c10_drain_overwrites_destination (st : FastCDCWrapper)
    (pending : List ChunkWithData) (hne : pending ≠ []) :
    (get_pending_chunks st pending).1 = st.chunks ∧
    (∀ pending2 : List ChunkWithData,
      (get_pending_chunks st pending).1 = (get_pending_chunks st pending2).1) ∧
    (get_pending_chunks st pending).1 ≠ pending ++ st.chunks := by
  refine ⟨rfl, fun p2 => rfl, ?_⟩
  intro heq
  have heq2 : st.chunks = pending ++ st.chunks := heq
  have hlen := congrArg List.length heq2
  simp only [List.length_append] at hlen
  have hp : pending.length = 0 := by omega
  exact hne (List.eq_nil_of_length_eq_zero hp)

/-- Witness for C10 at a concrete state and destination. -/
theorem c10_drain_overwrites_destination_witness :
    ([{ offset := 5, length := 1, data := [3] }] : List ChunkWithData) ≠ [] ∧
    ((get_pending_chunks
        { min := 1, avg := 1, max := 2, buf := [], global_offset := 1,
          chunks := [{ offset := 0, length := 1, data := [9] }] }
        [{ offset := 5, length := 1, data := [3] }]).1 =
      [{ offset := 0, length := 1, data := [9] }] ∧
    (∀ pending2 : List ChunkWithData,
      (get_pending_chunks
        { min := 1, avg := 1, max := 2, buf := [], global_offset := 1,
          chunks := [{ offset := 0, length := 1, data := [9] }] }
        [{ offset := 5, length := 1, data := [3] }]).1 =
      (get_pending_chunks
        { min := 1, avg := 1, max := 2, buf := [], global_offset := 1,
          chunks := [{ offset := 0, length := 1, data := [9] }] } pending2).1) ∧
    (get_pending_chunks
        { min := 1, avg := 1, max := 2, buf := [], global_offset := 1,
          chunks := [{ offset := 0, length := 1, data := [9] }] }
        [{ offset := 5, length := 1, data := [3] }]).1 ≠
      [{ offset := 5, length := 1, data := [3] }] ++
        [{ offset := 0, length := 1, data := [9] }]) :=
  ⟨by decide,
    c10_drain_overwrites_destination
      { min := 1, avg := 1, max := 2, buf := [], global_offset := 1,
        chunks := [{ offset := 0, length := 1, data := [9] }] }
      [{ offset := 5, length := 1, data := [3] }] (by decide)⟩
